import Mathlib

/-!
Verification model of `src/bot.py`, a Telegram bot offering four JSON-list
transforms (merge with dedup, split into n parts, subtract main minus
filters, literal find/replace) driven by a per-chat session dictionary.

Modelling conventions (shallow embedding of the Python source):
* Python strings are modelled as `List Char` (`Str`).
* JSON numbers are modelled as integers (`Int`); the bot's inputs in the
  spec are lists of links and objects, and none of the checked claims
  depends on float semantics.  `json.dumps`/`json.loads` are modelled for
  this integer fragment; floats, `\uXXXX` escapes, `ensure_ascii`
  transliteration of non-ASCII characters and underscore separators in
  `int()` literals are outside the model and are noted where relevant.
* Python `set` objects are modelled by their contents as a
  duplicate-free list in insertion order; iteration order of a `set` is
  implementation defined, so every statement about `for item in data_set`
  is parameterised by an iteration order (`itl`/`iter`) that is a
  permutation of the contents.  For the one concrete case needed (a set
  of distinct small non-negative ints) CPython's actual iteration order
  is modelled by `smallIntSetIter`.
-/

abbrev Str := List Char

/-- Shorthand for string literals as `List Char`. -/
def chars (s : String) : Str := s.toList

/-- The four whitespace characters recognised by Python's `json` module
(and modelling `str.strip` / `str.split` whitespace for the inputs that
occur here). -/
def isWsCh (c : Char) : Bool :=
  c = ' ' || c = '\n' || c = '\t' || c = '\r'

/-- Drop leading whitespace. -/
def skipWs : Str → Str
  | [] => []
  | c :: cs => if isWsCh c then skipWs cs else c :: cs

def isDigitCh (c : Char) : Bool := 48 ≤ c.toNat && c.toNat ≤ 57

/-- The decimal digit character for `d < 10`. -/
def digCh (d : Nat) : Char := Char.ofNat (48 + d)

/-- Fuelled decimal printing of a natural number (most significant digit
first), as Python's `str`/`json.dumps` prints non-negative integers. -/
def natDigitsGo : Nat → Nat → Str
  | 0, _ => []
  | fuel + 1, n => if n < 10 then [digCh n] else natDigitsGo fuel (n / 10) ++ [digCh (n % 10)]

def natDigits (n : Nat) : Str := natDigitsGo (n + 1) n

/-- Value of a list of decimal digit characters. -/
def digitsVal (ds : Str) : Nat := ds.foldl (fun a c => a * 10 + (c.toNat - 48)) 0

/-!
JSON values as Python's `json` module produces them, with numbers
restricted to integers.  Arrays and objects use the mutually inductive
list types `JList`/`JFields` (object fields keep insertion order, as a
Python `dict` does).
-/

mutual
inductive Json where
  | null
  | bool (b : Bool)
  | num (n : Int)
  | str (s : Str)
  | arr (elems : JList)
  | obj (fields : JFields)
deriving DecidableEq

inductive JList where
  | nil
  | cons (hd : Json) (tl : JList)
deriving DecidableEq

inductive JFields where
  | nil
  | cons (k : Str) (v : Json) (tl : JFields)
deriving DecidableEq
end

def JList.ofList : List Json → JList
  | [] => .nil
  | x :: xs => .cons x (JList.ofList xs)

def JList.toList : JList → List Json
  | .nil => []
  | .cons x xs => x :: JList.toList xs

def JFields.ofList : List (Str × Json) → JFields
  | [] => .nil
  | (k, v) :: xs => .cons k v (JFields.ofList xs)

/-- Lexicographic (code-point) comparison of Python strings, used by
`sorted` on `dict` keys for `json.dumps(..., sort_keys=True)`. -/
def strLe : Str → Str → Bool
  | [], _ => true
  | _ :: _, [] => false
  | c :: cs, d :: ds =>
    if c.toNat < d.toNat then true
    else if d.toNat < c.toNat then false
    else strLe cs ds

def insertFieldLe (k : Str) (v : Json) : JFields → JFields
  | .nil => .cons k v .nil
  | .cons k' v' tl =>
    if strLe k k' then .cons k v (.cons k' v' tl)
    else .cons k' v' (insertFieldLe k v tl)

/-- Stable insertion sort of object fields by key, modelling the
`sort_keys=True` option of `json.dumps`. -/
def sortFields : JFields → JFields
  | .nil => .nil
  | .cons k v tl => insertFieldLe k v (sortFields tl)

/-- Escaping of one character inside a JSON string literal, as
`json.dumps` emits it.  The five common escapes are modelled; other
control characters and the `ensure_ascii` `\uXXXX` transliteration are
outside the model (both serializer and parser treat such characters
literally, consistently). -/
def escChar (c : Char) : Str :=
  if c = '\\' then ['\\', '\\']
  else if c = '"' then ['\\', '"']
  else if c = '\n' then ['\\', 'n']
  else if c = '\t' then ['\\', 't']
  else if c = '\r' then ['\\', 'r']
  else [c]

def escStr : Str → Str
  | [] => []
  | c :: cs => escChar c ++ escStr cs

/-- `json.dumps` rendering of an integer. -/
def dumpInt (n : Int) : Str :=
  if n < 0 then '-' :: natDigits n.natAbs else natDigits n.toNat

/-!
`json.dumps(v)` with the default separators `", "` and `": "`.
`dumpsJ` serializes with the fields of every object in their stored
order (the default `json.dumps(item)` call of the replace transform);
`dumpsSorted` below composes it with a recursive key-sorting pass and
models `json.dumps(item, sort_keys=True)` (used for set keys), since
sorting every object's fields first and then serializing plainly yields
exactly the `sort_keys=True` output.
-/

mutual
def dumpsJ : Json → Str
  | .null => chars "null"
  | .bool b => if b then chars "true" else chars "false"
  | .num n => dumpInt n
  | .str s => '"' :: escStr s ++ ['"']
  | .arr xs => '[' :: dumpsL xs ++ [']']
  | .obj fs => '{' :: dumpsF fs ++ ['}']

def dumpsL : JList → Str
  | .nil => []
  | .cons x .nil => dumpsJ x
  | .cons x (.cons y tl) => dumpsJ x ++ [',', ' '] ++ dumpsL (.cons y tl)

def dumpsF : JFields → Str
  | .nil => []
  | .cons k v .nil => '"' :: escStr k ++ ['"', ':', ' '] ++ dumpsJ v
  | .cons k v (.cons k' v' tl) =>
    '"' :: escStr k ++ ['"', ':', ' '] ++ dumpsJ v ++ [',', ' '] ++ dumpsF (.cons k' v' tl)
end

mutual
def sortAllJ : Json → Json
  | .null => .null
  | .bool b => .bool b
  | .num n => .num n
  | .str s => .str s
  | .arr xs => .arr (sortAllL xs)
  | .obj fs => .obj (sortFields (sortAllF fs))

def sortAllL : JList → JList
  | .nil => .nil
  | .cons x tl => .cons (sortAllJ x) (sortAllL tl)

def sortAllF : JFields → JFields
  | .nil => .nil
  | .cons k v tl => .cons k (sortAllJ v) (sortAllF tl)
end

/-- `json.dumps(v, sort_keys=True)`: every object's fields are sorted by
key (recursively) before plain serialization. -/
def dumpsSorted (v : Json) : Str := dumpsJ (sortAllJ v)

/-!
A recursive-descent model of `json.loads` for the integer fragment.
It accepts the whitespace set of the `json` module, the literal tokens,
strings with the modelled escapes, integers (rejecting leading zeros, as
Python does), arrays and objects; trailing data after the top-level
value is rejected, as `json.loads` raises `Extra data`.  Floats and
`\uXXXX` escapes are outside the model and fail to parse.
-/

def unescChar (e : Char) : Option Char :=
  if e = '"' then some '"'
  else if e = '\\' then some '\\'
  else if e = '/' then some '/'
  else if e = 'n' then some '\n'
  else if e = 't' then some '\t'
  else if e = 'r' then some '\r'
  else if e = 'b' then some (Char.ofNat 8)
  else if e = 'f' then some (Char.ofNat 12)
  else none

/-- Parse the body of a JSON string literal (the opening quote already
consumed); returns the decoded string and the input after the closing
quote. -/
def parseStrBody : Str → Option (Str × Str)
  | [] => none
  | c :: cs =>
    if c = '"' then some ([], cs)
    else if c = '\\' then
      match cs with
      | [] => none
      | e :: cs' =>
        match unescChar e with
        | some u => (parseStrBody cs').map (fun p => (u :: p.1, p.2))
        | none => none
    else (parseStrBody cs).map (fun p => (c :: p.1, p.2))

def takeDigits : Str → Str × Str
  | [] => ([], [])
  | c :: cs =>
    if isDigitCh c then
      let p := takeDigits cs
      (c :: p.1, p.2)
    else ([], c :: cs)

/-- Parse a non-negative integer literal; a leading zero is only allowed
for the literal `0` itself, as in the JSON grammar. -/
def parseNumNat (s : Str) : Option (Nat × Str) :=
  match takeDigits s with
  | ([], _) => none
  | (d :: ds, r) => if d = '0' ∧ ds ≠ [] then none else some (digitsVal (d :: ds), r)

def parseNum (s : Str) : Option (Int × Str) :=
  match s with
  | '-' :: cs =>
    match parseNumNat cs with
    | some (n, r) => some (-(n : Int), r)
    | none => none
  | _ =>
    match parseNumNat s with
    | some (n, r) => some ((n : Int), r)
    | none => none

/-- Requests of the fuelled JSON parser: a value, the elements of an
array after `[`, or the fields of an object after `{`. -/
inductive PIn where
  | val (s : Str)
  | elems (s : Str)
  | fields (s : Str)

inductive POut where
  | val (v : Json) (r : Str)
  | elems (xs : JList) (r : Str)
  | fields (kvs : JFields) (r : Str)

/-- The fuelled recursive-descent parser.  All recursive calls decrease
the fuel, so the definition is structural and evaluates inside the
kernel; `loads` supplies enough fuel for any input. -/
def parseAux : Nat → PIn → Option POut
  | 0, _ => none
  | fuel + 1, .val s =>
    match skipWs s with
    | [] => none
    | c :: cs =>
      if c = 'n' then
        match cs with
        | 'u' :: 'l' :: 'l' :: r => some (.val .null r)
        | _ => none
      else if c = 't' then
        match cs with
        | 'r' :: 'u' :: 'e' :: r => some (.val (.bool true) r)
        | _ => none
      else if c = 'f' then
        match cs with
        | 'a' :: 'l' :: 's' :: 'e' :: r => some (.val (.bool false) r)
        | _ => none
      else if c = '"' then
        match parseStrBody cs with
        | some (s', r) => some (.val (.str s') r)
        | none => none
      else if c = '[' then
        match skipWs cs with
        | ']' :: r => some (.val (.arr .nil) r)
        | _ =>
          match parseAux fuel (.elems cs) with
          | some (.elems xs r) => some (.val (.arr xs) r)
          | _ => none
      else if c = '{' then
        match skipWs cs with
        | '}' :: r => some (.val (.obj .nil) r)
        | _ =>
          match parseAux fuel (.fields cs) with
          | some (.fields kvs r) => some (.val (.obj kvs) r)
          | _ => none
      else
        match parseNum (c :: cs) with
        | some (n, r) => some (.val (.num n) r)
        | none => none
  | fuel + 1, .elems s =>
    match parseAux fuel (.val s) with
    | some (.val v r) =>
      (match skipWs r with
       | ',' :: r' =>
         (match parseAux fuel (.elems r') with
          | some (.elems xs r'') => some (.elems (.cons v xs) r'')
          | _ => none)
       | ']' :: r' => some (.elems (.cons v .nil) r')
       | _ => none)
    | _ => none
  | fuel + 1, .fields s =>
    match skipWs s with
    | '"' :: cs =>
      (match parseStrBody cs with
       | some (k, r) =>
         (match skipWs r with
          | ':' :: r2 =>
            (match parseAux fuel (.val r2) with
             | some (.val v r3) =>
               (match skipWs r3 with
                | ',' :: r4 =>
                  (match parseAux fuel (.fields r4) with
                   | some (.fields kvs r5) => some (.fields (.cons k v kvs) r5)
                   | _ => none)
                | '}' :: r4 => some (.fields (.cons k v .nil) r4)
                | _ => none)
             | _ => none)
          | _ => none)
       | none => none)
    | _ => none

/-- `json.loads`: parse one value, then require only trailing whitespace. -/
def loads (s : Str) : Option Json :=
  match parseAux (s.length + 1) (.val s) with
  | some (.val v r) => if skipWs r = [] then some v else none
  | _ => none

/-!
Python string operations used by the replace transform:
`find in s` (substring containment) and `s.replace(find, rep)`
(left-to-right replacement of non-overlapping occurrences; with an empty
pattern Python inserts the replacement before every character and at the
end).
-/

/-- Boolean list-prefix test. -/
def isPre : Str → Str → Bool
  | [], _ => true
  | _ :: _, [] => false
  | c :: cs, d :: ds => c = d && isPre cs ds

/-- `find in s` for Python strings: some suffix of `s` starts with
`find` (always true for the empty pattern). -/
def hasSub (f : Str) : Str → Bool
  | [] => f = []
  | c :: cs => isPre f (c :: cs) || hasSub f cs

/-- One step of `str.replace` with a non-empty pattern, fuelled by the
length of the subject string: at each position, if the pattern is a
prefix, emit the replacement and continue after the matched text,
otherwise keep the character. -/
def replGo (f r : Str) : Nat → Str → Str
  | _, [] => []
  | 0, s => s
  | k + 1, c :: cs =>
    if isPre f (c :: cs) then r ++ replGo f r k (List.drop f.length (c :: cs))
    else c :: replGo f r k cs

/-- Python `s.replace("", r)`: the replacement is inserted before every
character and once at the end. -/
def interleaveRep (r : Str) : Str → Str
  | [] => r
  | c :: cs => r ++ c :: interleaveRep r cs

/-- Python `s.replace(f, r)`. -/
def pyReplace (s f r : Str) : Str :=
  if f = [] then interleaveRep r s else replGo f r s.length s

/-!
Elements of the bot's Python sets (`merged_data` of the merge session
and `filter_set` of the subtract session).  The bot puts scalars into
the set as they are and compound values as their `sort_keys=True`
serialization string — with a `"JSON_OBJ:"` prefix in the merge set
(`handle_files`, merge branch) and without any prefix in the subtract
filter set (`handle_files`, op_filter branch; matched by
`finalize_action`'s `check_val`).
-/

inductive SetElem where
  | pyNone
  | pyBool (b : Bool)
  | pyInt (n : Int)
  | pyStr (s : Str)
deriving DecidableEq

/-- The merge-set key of an uploaded element: scalars as themselves,
compounds as `"JSON_OBJ:" + json.dumps(item, sort_keys=True)`. -/
def normMerge : Json → SetElem
  | .null => .pyNone
  | .bool b => .pyBool b
  | .num n => .pyInt n
  | .str s => .pyStr s
  | .arr xs => .pyStr (chars "JSON_OBJ:" ++ dumpsSorted (.arr xs))
  | .obj fs => .pyStr (chars "JSON_OBJ:" ++ dumpsSorted (.obj fs))

/-- The subtract-set key of an element: scalars as themselves, compounds
as `json.dumps(item, sort_keys=True)` (no prefix). -/
def subKey : Json → SetElem
  | .null => .pyNone
  | .bool b => .pyBool b
  | .num n => .pyInt n
  | .str s => .pyStr s
  | .arr xs => .pyStr (dumpsSorted (.arr xs))
  | .obj fs => .pyStr (dumpsSorted (.obj fs))

/-- Adding the elements of one uploaded list to the merge set
(`handle_files`, merge branch): each element's key is added if not
already present.  The list records the set's contents in insertion
order; iteration order is modelled separately. -/
def mergeIngestList (st : List SetElem) (data : List Json) : List SetElem :=
  data.foldl (fun acc x => if normMerge x ∈ acc then acc else acc ++ [normMerge x]) st

/-- The merge set after a sequence of uploads. -/
def mergeAccum (uploads : List (List Json)) : List SetElem :=
  uploads.foldl mergeIngestList []

/-- What `finalize_action` emits for one retained set element: a string
starting with `"JSON_OBJ:"` whose suffix parses as JSON becomes the
parsed value (`json.loads(item[9:])`), any other string stays a string,
scalars stay scalars. -/
def setElemOut : SetElem → Json
  | .pyNone => .null
  | .pyBool b => .bool b
  | .pyInt n => .num n
  | .pyStr s =>
    if isPre (chars "JSON_OBJ:") s then
      match loads (s.drop 9) with
      | some v => v
      | none => .str s
    else .str s

/-- The finalized merge output for a given iteration order of the set. -/
def mergeFinalizeList (itl : List SetElem) : List Json := itl.map setElemOut

/-- The number of distinct normalized keys of a combined input list, in
first-occurrence order. -/
def dedupKeys (xs : List Json) : List SetElem := mergeIngestList [] xs

/-- Modelled from the spec's reading of the claim: the output the claim
predicts for merge, one original element per distinct normalized key in
first-occurrence order. -/
def dedupFirstOcc (xs : List Json) : List Json :=
  xs.foldl (fun acc x => if normMerge x ∈ acc.map normMerge then acc else acc ++ [x]) []

/-- CPython's iteration order for a `set` whose elements are distinct
small non-negative ints (all below 8): `hash(n) = n`, the initial hash
table has 8 slots, each int occupies slot `n`, and iteration scans the
slots in order — so the set iterates in ascending numeric order,
regardless of insertion order.  (Modelled as an insertion sort; it is
only ever applied to such sets.) -/
def insertLeSE (x : SetElem) : List SetElem → List SetElem
  | [] => [x]
  | y :: ys =>
    match x, y with
    | .pyInt m, .pyInt n => if m ≤ n then x :: y :: ys else y :: insertLeSE x ys
    | _, _ => x :: y :: ys

def smallIntSetIter (l : List SetElem) : List SetElem := l.foldr insertLeSE []

/-- Adding one uploaded filter file to the subtract filter set
(`handle_files`, op_filter branch). -/
def filterIngest (st : List SetElem) (data : List Json) : List SetElem :=
  data.foldl (fun acc x => if subKey x ∈ acc then acc else acc ++ [subKey x]) st

/-- The subtraction loop of `finalize_action`: keep the main-list items
whose `check_val` is not in the filter set, in order. -/
def subtractList (M : List Json) (F : List SetElem) : List Json :=
  match M with
  | [] => []
  | x :: xs => if subKey x ∈ F then subtractList xs F else x :: subtractList xs F

/-- `math.ceil(a / b)` for the non-negative integers involved. -/
def ceilDiv (a b : Nat) : Nat := (a + b - 1) / b

/-- The split loop of `handle_files`: `n` rounds of
`data[i*chunk : (i+1)*chunk]`, stopping at the first empty chunk. -/
def splitGo (data : List Json) (cs : Nat) : Nat → Nat → List (List Json)
  | 0, _ => []
  | k + 1, i =>
    let chunk := (data.drop (i * cs)).take cs
    if chunk = [] then [] else chunk :: splitGo data cs k (i + 1)

/-- All parts emitted by the split transform for list `data` and part
count `n`, with `chunk_size = ceil(len(data) / n)`. -/
def splitParts (data : List Json) (n : Nat) : List (List Json) :=
  splitGo data (ceilDiv data.length n) n 0

/-- One element of the replace transform: strings get a literal
`str.replace` when the pattern occurs; any other value is serialized
with plain `json.dumps`, replaced, and re-parsed, keeping the original
on a parse failure (the bare `except`).  The `Bool` reports whether the
occurrence counter was incremented. -/
def replElem (f r : Str) (e : Json) : Json × Bool :=
  match e with
  | .str s => if hasSub f s then (.str (pyReplace s f r), true) else (.str s, false)
  | e =>
    let s := dumpsJ e
    if hasSub f s then
      match loads (pyReplace s f r) with
      | some v => (v, true)
      | none => (e, false)
    else (e, false)

/-- The whole replace transform: the new list and the occurrence count. -/
def replaceTransform (L : List Json) (f r : Str) : List Json × Nat :=
  L.foldr (fun e acc => let p := replElem f r e; (p.1 :: acc.1, (if p.2 then 1 else 0) + acc.2)) ([], 0)

/-- Which elements the claim counts: elements containing at least one
literal match of the pattern - in the string itself for string
elements, in the plain serialization for all other values. -/
def elemMatches (f : Str) : Json → Bool
  | .str s => hasSub f s
  | e => hasSub f (dumpsJ e)

/-!
The session state machine.  `user_states` maps a chat id to a state
dict; sessions are independent, so the model tracks the state of one
chat as an `Option SessionState` (`none` = no entry).  Python state
dicts carry only the keys their mode uses; unused fields sit at their
defaults.  Outputs collect the `bot.reply_to`/`bot.send_message` texts
and the documents sent via `bot.send_document` (name, parsed content,
caption); message texts are modelled as short ASCII versions of the
originals, which the claims only inspect for presence and kind.
-/

inductive Mode where
  | merge
  | split
  | opMain
  | opFilter
  | replaceStep1
  | replaceStep2
  | replaceReady
deriving DecidableEq

structure SessionState where
  mode : Mode
  mergedData : List SetElem := []
  splitN : Nat := 1
  mainData : List Json := []
  filterSet : List SetElem := []
  findText : Str := []
  replaceText : Str := []
deriving DecidableEq

inductive Out where
  | msg (text : Str)
  | doc (name : Str) (content : List Json) (caption : Str)
deriving DecidableEq

/-- The document contents among a list of outputs. -/
def docsOf (outs : List Out) : List (List Json) :=
  outs.filterMap fun o =>
    match o with
    | .doc _ content _ => some content
    | _ => none

/-- `/replace` handler `init_replace`. -/
def initReplace (_st : Option SessionState) : Option SessionState × List Out :=
  (some { mode := .replaceStep1 }, [.msg (chars "Find and Replace. Step 1: send the text to FIND.")])

/-- `/merge` handler `init_merge`. -/
def initMerge (_st : Option SessionState) : Option SessionState × List Out :=
  (some { mode := .merge }, [.msg (chars "Merge Mode started. Upload files. Duplicates removed. Type /done when finished.")])

/-- `/operation` handler `init_operation`. -/
def initOperation (_st : Option SessionState) : Option SessionState × List Out :=
  (some { mode := .opMain }, [.msg (chars "Step 1: Upload the MAIN JSON file.")])

/-- Python `str.split()` with no arguments: maximal runs of non-space
characters. -/
def takeNonWs : Str → Str × Str
  | [] => ([], [])
  | c :: cs =>
    if isWsCh c then ([], c :: cs)
    else
      let p := takeNonWs cs
      (c :: p.1, p.2)

def splitWsGo : Nat → Str → List Str
  | 0, _ => []
  | _ + 1, [] => []
  | k + 1, c :: cs =>
    if isWsCh c then splitWsGo k cs
    else
      let p := takeNonWs (c :: cs)
      p.1 :: splitWsGo k p.2

def splitWs (s : Str) : List Str := splitWsGo s.length s

def stripWs (s : Str) : Str := ((skipWs s).reverse |> skipWs).reverse

/-- Python `int(s)` on the strings reaching `init_split`: optional sign
followed by decimal digits (underscore separators and non-ASCII digits
are outside the model). -/
def pyInt (s : Str) : Option Int :=
  match stripWs s with
  | '-' :: ds => if ds ≠ [] ∧ ds.all isDigitCh then some (-(digitsVal ds : Int)) else none
  | '+' :: ds => if ds ≠ [] ∧ ds.all isDigitCh then some ((digitsVal ds : Int)) else none
  | ds => if ds ≠ [] ∧ ds.all isDigitCh then some ((digitsVal ds : Int)) else none

/-- `/split` handler `init_split`, taking the full message text.
With fewer than two words it replies with an error; a non-integer
argument raises `ValueError`, caught by the bare `except` which replies
with an error; an integer below 1 hits `if n < 1: return` and produces
no output at all.  Only the success path touches `user_states`. -/
def initSplit (st : Option SessionState) (text : Str) : Option SessionState × List Out :=
  let args := splitWs text
  if args.length < 2 then (st, [.msg (chars "Specify N. Example: /split 5")])
  else
    match pyInt (args.getD 1 []) with
    | none => (st, [.msg (chars "Error.")])
    | some n =>
      if n < 1 then (st, [])
      else (some { mode := .split, splitN := n.toNat },
            [.msg (chars "Ready to split into N files. Upload JSON now.")])

/-- The non-command text handler `handle_text_inputs`: only the two
replace steps react; any other state (or no state) ignores the text. -/
def handleTextInputs (st : Option SessionState) (text : Str) : Option SessionState × List Out :=
  match st with
  | none => (none, [])
  | some s =>
    if s.mode = .replaceStep1 then
      (some { s with mode := .replaceStep2, findText := text },
       [.msg (chars "Finding: " ++ text ++ chars ". Step 2: send the text to REPLACE IT WITH.")])
    else if s.mode = .replaceStep2 then
      (some { s with mode := .replaceReady, replaceText := text },
       [.msg (chars "Replacing: " ++ s.findText ++ chars " with " ++ text ++ chars ". Step 3: upload your JSON file now.")])
    else (some s, [])

/-- `/done` handler `finalize_action`, parameterised by the iteration
order `iter` of the merge set (CPython set iteration order is
implementation defined; theorems only assume it is a permutation of the
contents).  In merge mode with an empty set it reports "No data." and
keeps the session; in the subtract modes with empty `main_data` it
silently returns, keeping the session; any other mode falls through all
branches doing nothing. -/
def finalizeAction (iter : List SetElem → List SetElem) (st : Option SessionState) :
    Option SessionState × List Out :=
  match st with
  | none => (none, [])
  | some s =>
    if s.mode = .merge then
      if s.mergedData = [] then (some s, [.msg (chars "No data.")])
      else
        let finalList := mergeFinalizeList (iter s.mergedData)
        (none,
         [.msg (chars "Saving merged file (" ++ natDigits s.mergedData.length ++ chars " unique items)..."),
          .doc (chars "Merged_" ++ natDigits finalList.length ++ chars "_unique.json") finalList
            (chars "Merge Complete")])
    else if s.mode = .opMain ∨ s.mode = .opFilter then
      if s.mainData = [] then (some s, [])
      else
        let finalList := subtractList s.mainData s.filterSet
        (none,
         [.doc (chars "Result_" ++ natDigits finalList.length ++ chars "_items.json") finalList
            (chars "Done. Remaining: " ++ natDigits finalList.length)])
    else (some s, [])

/-- The document outputs of the split branch: `Part_<i>.json`, 1-indexed. -/
def splitOuts (data : List Json) (n : Nat) : List Out :=
  (splitParts data n).enum.map fun p =>
    .doc (chars "Part_" ++ natDigits (p.1 + 1) ++ chars ".json") p.2 (chars "Part " ++ natDigits (p.1 + 1))

/-- The document handler `handle_files`.  `content` is the parsed upload
(`none` models a download/JSON failure of `load_json_content`).  With no
session it asks for a command; a missing or non-list root is rejected
before any mode dispatch; then one branch per mode, exactly as in the
source (a file sent during the replace text steps matches no branch and
does nothing). -/
def handleFiles (st : Option SessionState) (content : Option Json) :
    Option SessionState × List Out :=
  match st with
  | none => (none, [.msg (chars "Select a command first.")])
  | some s =>
    match content with
    | some (.arr xs) =>
      let data := xs.toList
      match s.mode with
      | .replaceReady =>
        let p := replaceTransform data s.findText s.replaceText
        (none,
         [.msg (chars "Replaced " ++ natDigits p.2 ++ chars " occurrences."),
          .doc (chars "Replaced_Output.json") p.1 []])
      | .merge =>
        let merged := mergeIngestList s.mergedData data
        (some { s with mergedData := merged },
         [.msg (chars "Added unique items. Total: " ++ natDigits merged.length)])
      | .split => (none, splitOuts data s.splitN)
      | .opMain =>
        (some { s with mainData := data, mode := .opFilter },
         [.msg (chars "Main loaded. Upload filters.")])
      | .opFilter =>
        (some { s with filterSet := filterIngest s.filterSet data },
         [.msg (chars "Filter added. Upload next or /done.")])
      | _ => (some s, [])
    | _ => (some s, [.msg (chars "Error: File must be a valid JSON List.")])

/-- A remainder string that cannot extend a number literal to its left:
empty, or starting with a non-digit. -/
def tailOk (r : Str) : Prop := ∀ c cs, r = c :: cs → isDigitCh c = false

/-!
Lemmas.  First the character/whitespace/digit facts, then correctness of
the decimal printer against the digit parser, then the serializer/parser
round trip, then the lemmas for each transform, and finally one theorem
(plus witness or counterexample) per checked claim.
-/

theorem isWsCh_cases (c : Char) (h : isWsCh c = true) :
    c = ' ' ∨ c = '\n' ∨ c = '\t' ∨ c = '\r' := by
  simp only [isWsCh, Bool.or_eq_true, decide_eq_true_eq] at h
  tauto

theorem not_ws_of_digit (c : Char) (h : isDigitCh c = true) : isWsCh c = false := by
  cases hw : isWsCh c with
  | false => rfl
  | true =>
    rcases isWsCh_cases c hw with rfl | rfl | rfl | rfl <;> simp [isDigitCh] at h

theorem skipWs_cons_of_not_ws (c : Char) (cs : Str) (h : isWsCh c = false) :
    skipWs (c :: cs) = c :: cs := by
  simp [skipWs, h]

theorem digCh_toNat (d : Nat) (h : d < 10) : (digCh d).toNat = 48 + d := by
  interval_cases d <;> decide

theorem isDigitCh_digCh (d : Nat) (h : d < 10) : isDigitCh (digCh d) = true := by
  interval_cases d <;> decide

theorem digCh_ne_zero_ch (d : Nat) (h0 : 1 ≤ d) (h : d < 10) : digCh d ≠ '0' := by
  interval_cases d <;> decide

theorem natDigitsGo_spec : ∀ fuel n, n < fuel →
    natDigitsGo fuel n ≠ [] ∧ (∀ c ∈ natDigitsGo fuel n, isDigitCh c = true) ∧
      digitsVal (natDigitsGo fuel n) = n ∧
      (∀ ds, natDigitsGo fuel n = '0' :: ds → n = 0) := by
  intro fuel
  induction fuel with
  | zero => intro n hn; omega
  | succ fuel ih =>
    intro n hn
    by_cases h10 : n < 10
    · refine ⟨by simp [natDigitsGo, h10], ?_, ?_, ?_⟩
      · intro c hc
        simp [natDigitsGo, h10] at hc
        subst hc
        exact isDigitCh_digCh n h10
      · simp [natDigitsGo, h10, digitsVal, digCh_toNat n h10]
      · intro ds hds
        by_contra hne
        simp [natDigitsGo, h10] at hds
        exact digCh_ne_zero_ch n (by omega) h10 hds.1
    · have hdiv : n / 10 < fuel := by
        have h1 : n / 10 < n := Nat.div_lt_self (by omega) (by omega)
        omega
      obtain ⟨hne, hall, hval, hzero⟩ := ih (n / 10) hdiv
      have hmod : n % 10 < 10 := Nat.mod_lt _ (by omega)
      have heq : natDigitsGo (fuel + 1) n = natDigitsGo fuel (n / 10) ++ [digCh (n % 10)] := by
        simp [natDigitsGo, h10]
      refine ⟨by simp [heq], ?_, ?_, ?_⟩
      · intro c hc
        rw [heq] at hc
        rcases List.mem_append.mp hc with h | h
        · exact hall c h
        · simp at h; subst h; exact isDigitCh_digCh _ hmod
      · rw [heq]
        unfold digitsVal
        rw [List.foldl_append]
        have : digitsVal (natDigitsGo fuel (n / 10)) = n / 10 := hval
        unfold digitsVal at this
        rw [this]
        simp [digCh_toNat _ hmod]
        omega
      · intro ds hds
        rw [heq] at hds
        rcases hgo : natDigitsGo fuel (n / 10) with _ | ⟨d, ds'⟩
        · exact absurd hgo hne
        · rw [hgo] at hds
          simp at hds
          have := hzero ds' (by rw [hgo, hds.1])
          omega

theorem natDigits_spec (n : Nat) :
    natDigits n ≠ [] ∧ (∀ c ∈ natDigits n, isDigitCh c = true) ∧
      digitsVal (natDigits n) = n ∧ (∀ ds, natDigits n = '0' :: ds → n = 0) :=
  natDigitsGo_spec (n + 1) n (by omega)

theorem takeDigits_append (ds rest : Str) (hds : ∀ c ∈ ds, isDigitCh c = true)
    (hr : tailOk rest) : takeDigits (ds ++ rest) = (ds, rest) := by
  induction ds with
  | nil =>
    cases rest with
    | nil => rfl
    | cons c cs => simp [takeDigits, hr c cs rfl]
  | cons d ds ih =>
    have hd := hds d (by simp)
    have ih' := ih (fun c hc => hds c (by simp [hc]))
    simp [takeDigits, hd, ih']

theorem natDigits_zero : natDigits 0 = ['0'] := by decide

theorem parseNumNat_round (m : Nat) (rest : Str) (hr : tailOk rest) :
    parseNumNat (natDigits m ++ rest) = some (m, rest) := by
  obtain ⟨hne, hall, hval, hzero⟩ := natDigits_spec m
  have htake : takeDigits (natDigits m ++ rest) = (natDigits m, rest) :=
    takeDigits_append _ _ hall hr
  rcases hds : natDigits m with _ | ⟨d, ds⟩
  · exact absurd hds hne
  · rw [hds] at htake hval
    have h0 : ¬(d = '0' ∧ ds ≠ []) := by
      rintro ⟨h0d, h0ds⟩
      rw [h0d] at hds
      have hm := hzero ds hds
      rw [hm, natDigits_zero] at hds
      have hnil : ds = [] := by simpa using hds.symm
      exact h0ds hnil
    unfold parseNumNat
    rw [htake]
    simp only [if_neg h0, hval]

theorem natDigits_head_not_neg (m : Nat) (d : Char) (ds : Str)
    (h : natDigits m = d :: ds) : d ≠ '-' := by
  obtain ⟨_, hall, _, _⟩ := natDigits_spec m
  have hd := hall d (by rw [h]; simp)
  intro he
  rw [he] at hd
  simp [isDigitCh] at hd

theorem parseNum_round (n : Int) (rest : Str) (hr : tailOk rest) :
    parseNum (dumpInt n ++ rest) = some (n, rest) := by
  unfold dumpInt
  by_cases hn : n < 0
  · rw [if_pos hn]
    have hres := parseNumNat_round n.natAbs rest hr
    have hcast : -((n.natAbs : Int)) = n := by omega
    simp only [List.cons_append, parseNum, hres, hcast]
  · rw [if_neg hn]
    have hres := parseNumNat_round n.toNat rest hr
    rcases hds : natDigits n.toNat with _ | ⟨d, ds⟩
    · exact absurd hds (natDigits_spec n.toNat).1
    · rw [hds] at hres
      have hdneg : d ≠ '-' := natDigits_head_not_neg _ _ _ hds
      have hcast : ((n.toNat : Int)) = n := by omega
      unfold parseNum
      split
      · rename_i cs heq
        exact absurd (by simpa using congrArg (fun l => l.headI) heq) hdneg
      · rw [show (d :: ds ++ rest : Str) = (d :: ds) ++ rest from rfl, hres]
        simp [hcast]

theorem parseStrBody_round (s rest : Str) :
    parseStrBody (escStr s ++ '"' :: rest) = some (s, rest) := by
  induction s with
  | nil =>
    simp only [escStr, List.nil_append]
    unfold parseStrBody
    simp
  | cons c cs ih =>
    show parseStrBody ((escChar c ++ escStr cs) ++ '"' :: rest) = some (c :: cs, rest)
    unfold escChar
    by_cases h1 : c = '\\'
    · subst h1; unfold parseStrBody; simp [unescChar, ih]
    · rw [if_neg h1]
      by_cases h2 : c = '"'
      · subst h2; unfold parseStrBody; simp [unescChar, ih]
      · rw [if_neg h2]
        by_cases h3 : c = '\n'
        · subst h3; unfold parseStrBody; simp [unescChar, ih]
        · rw [if_neg h3]
          by_cases h4 : c = '\t'
          · subst h4; unfold parseStrBody; simp [unescChar, ih]
          · rw [if_neg h4]
            by_cases h5 : c = '\r'
            · subst h5; unfold parseStrBody; simp [unescChar, ih]
            · rw [if_neg h5]
              simp only [List.singleton_append, List.cons_append]
              unfold parseStrBody
              simp [h1, h2, ih]

theorem dumpsJ_head (v : Json) :
    ∃ c cs, dumpsJ v = c :: cs ∧ isWsCh c = false ∧ c ≠ ']' := by
  cases v with
  | null => exact ⟨'n', _, rfl, by decide, by decide⟩
  | bool b => cases b with
    | true => exact ⟨'t', _, rfl, by decide, by decide⟩
    | false => exact ⟨'f', _, rfl, by decide, by decide⟩
  | str s => exact ⟨'"', _, rfl, by decide, by decide⟩
  | arr xs => exact ⟨'[', _, rfl, by decide, by decide⟩
  | obj fs => exact ⟨'{', _, rfl, by decide, by decide⟩
  | num n =>
    show ∃ c cs, dumpInt n = c :: cs ∧ _
    unfold dumpInt
    by_cases hn : n < 0
    · exact ⟨'-', _, by rw [if_pos hn], by decide, by decide⟩
    · rw [if_neg hn]
      obtain ⟨hne, hall, -, -⟩ := natDigits_spec n.toNat
      rcases hds : natDigits n.toNat with _ | ⟨d, ds⟩
      · exact absurd hds hne
      · have hd := hall d (by rw [hds]; simp)
        refine ⟨d, ds, rfl, not_ws_of_digit d hd, ?_⟩
        intro he
        rw [he] at hd
        simp [isDigitCh] at hd

theorem skipWs_dumpsJ (v : Json) (rest : Str) :
    skipWs (dumpsJ v ++ rest) = dumpsJ v ++ rest := by
  obtain ⟨c, cs, heq, hws, -⟩ := dumpsJ_head v
  rw [heq, List.cons_append, skipWs_cons_of_not_ws _ _ hws]

theorem dumpsJ_length_pos (v : Json) : 1 ≤ (dumpsJ v).length := by
  obtain ⟨c, cs, heq, -, -⟩ := dumpsJ_head v
  rw [heq]; simp

theorem dumpsJ_head_ne_rbrack (v : Json) (rest r : Str) :
    dumpsJ v ++ rest ≠ ']' :: r := by
  obtain ⟨c, cs, heq, -, hne⟩ := dumpsJ_head v
  rw [heq]
  intro hcontra
  simp at hcontra
  exact hne hcontra.1

theorem tailOk_cons_of_not_digit (c : Char) (cs : Str) (h : isDigitCh c = false) :
    tailOk (c :: cs) := by
  intro d ds hd
  cases hd
  exact h

theorem dumpInt_head (n : Int) (d : Char) (ds : Str) (h : dumpInt n = d :: ds) :
    d = '-' ∨ isDigitCh d = true := by
  unfold dumpInt at h
  by_cases hn : n < 0
  · rw [if_pos hn] at h
    simp only [List.cons.injEq] at h
    exact Or.inl h.1.symm
  · rw [if_neg hn] at h
    have hall := (natDigits_spec n.toNat).2.1
    exact Or.inr (hall d (by rw [h]; simp))

theorem num_head_ne (d : Char) (hdfact : d = '-' ∨ isDigitCh d = true) :
    d ≠ 'n' ∧ d ≠ 't' ∧ d ≠ 'f' ∧ d ≠ '"' ∧ d ≠ '[' ∧ d ≠ '{' := by
  rcases hdfact with rfl | hdig
  · refine ⟨by decide, by decide, by decide, by decide, by decide, by decide⟩
  · refine ⟨?_, ?_, ?_, ?_, ?_, ?_⟩ <;>
      (intro he; rw [he] at hdig; simp [isDigitCh] at hdig)

theorem dumpsF_cons_head (k : Str) (v : Json) (tl : JFields) :
    ∃ y, dumpsF (.cons k v tl) = '"' :: y := by
  cases tl with
  | nil => exact ⟨_, rfl⟩
  | cons k2 v2 tl2 => exact ⟨_, rfl⟩

theorem skipWs_dumpsF_cons (k : Str) (v : Json) (tl : JFields) (rest : Str) :
    skipWs (dumpsF (.cons k v tl) ++ rest) = dumpsF (.cons k v tl) ++ rest := by
  obtain ⟨y, hy⟩ := dumpsF_cons_head k v tl
  rw [hy, List.cons_append, skipWs_cons_of_not_ws _ _ (by decide)]

theorem dumpsF_cons_ne_rbrace (k : Str) (v : Json) (tl : JFields) (rest r : Str) :
    dumpsF (.cons k v tl) ++ rest ≠ '}' :: r := by
  obtain ⟨y, hy⟩ := dumpsF_cons_head k v tl
  rw [hy]
  intro hcontra
  simp at hcontra

/-- Round trip of the serializer through the parser, by induction on the
parser fuel: a plain `json.dumps` output (followed by any remainder that
cannot extend its last token) parses back to the original value. -/
theorem parse_round (fuel : Nat) :
    (∀ v s rest, skipWs s = dumpsJ v ++ rest → tailOk rest → (dumpsJ v).length ≤ fuel →
        parseAux fuel (.val s) = some (.val v rest))
    ∧ (∀ xs s rest, xs ≠ JList.nil → skipWs s = dumpsL xs ++ ']' :: rest →
        (dumpsL xs).length + 1 ≤ fuel →
        parseAux fuel (.elems s) = some (.elems xs rest))
    ∧ (∀ fs s rest, fs ≠ JFields.nil → skipWs s = dumpsF fs ++ '}' :: rest →
        (dumpsF fs).length + 1 ≤ fuel →
        parseAux fuel (.fields s) = some (.fields fs rest)) := by
  induction fuel with
  | zero =>
    refine ⟨?_, ?_, ?_⟩
    · intro v s rest _ _ hlen
      exact absurd hlen (by have := dumpsJ_length_pos v; omega)
    · intro xs s rest _ _ hlen
      exact absurd hlen (by omega)
    · intro fs s rest _ _ hlen
      exact absurd hlen (by omega)
  | succ fuel ih =>
    obtain ⟨ihv, ihe, ihf⟩ := ih
    refine ⟨?_, ?_, ?_⟩
    · -- values
      intro v s rest hskip htail hlen
      cases v with
      | null =>
        have h : dumpsJ Json.null = ['n', 'u', 'l', 'l'] := rfl
        rw [h] at hskip
        unfold parseAux
        rw [hskip]
        simp
      | bool b =>
        cases b with
        | true =>
          have h : dumpsJ (Json.bool true) = ['t', 'r', 'u', 'e'] := rfl
          rw [h] at hskip
          unfold parseAux
          rw [hskip]
          simp
        | false =>
          have h : dumpsJ (Json.bool false) = ['f', 'a', 'l', 's', 'e'] := rfl
          rw [h] at hskip
          unfold parseAux
          rw [hskip]
          simp
      | num n =>
        have hd : dumpsJ (Json.num n) = dumpInt n := rfl
        rw [hd] at hskip
        rcases hdi : dumpInt n with _ | ⟨d, ds⟩
        · exfalso
          have := dumpsJ_length_pos (.num n)
          rw [hd, hdi] at this
          simp at this
        · rw [hdi] at hskip
          obtain ⟨hne1, hne2, hne3, hne4, hne5, hne6⟩ := num_head_ne d (dumpInt_head n d ds hdi)
          have hnum : parseNum (d :: (ds ++ rest)) = some (n, rest) := by
            rw [show (d :: (ds ++ rest) : Str) = (d :: ds) ++ rest from rfl, ← hdi]
            exact parseNum_round n rest htail
          unfold parseAux
          rw [hskip]
          simp [hne1, hne2, hne3, hne4, hne5, hne6, hnum]
      | str s' =>
        have hskip2 : skipWs s = '"' :: (escStr s' ++ '"' :: rest) := by
          rw [hskip]; show dumpsJ (Json.str s') ++ rest = _; simp [dumpsJ]
        have hps : parseStrBody (escStr s' ++ '"' :: rest) = some (s', rest) :=
          parseStrBody_round s' rest
        unfold parseAux
        rw [hskip2]
        simp [hps]
      | arr xs =>
        cases xs with
        | nil =>
          have hskip2 : skipWs s = '[' :: ']' :: rest := by
            rw [hskip]; rfl
          unfold parseAux
          rw [hskip2]
          simp [skipWs, show isWsCh ']' = false from rfl]
        | cons hd' tl =>
          set xs := JList.cons hd' tl with hxs
          have hskip2 : skipWs s = '[' :: (dumpsL xs ++ ']' :: rest) := by
            rw [hskip]; show ('[' :: dumpsL xs ++ [']']) ++ rest = _; simp
          have hLhd : ∃ mid, dumpsL xs = dumpsJ hd' ++ mid := by
            cases tl with
            | nil => exact ⟨[], by simp [hxs, dumpsL]⟩
            | cons y tl' => exact ⟨[',', ' '] ++ dumpsL (.cons y tl'), by simp [hxs, dumpsL]⟩
          obtain ⟨mid, hmid⟩ := hLhd
          have hskipcs : skipWs (dumpsL xs ++ ']' :: rest) = dumpsL xs ++ ']' :: rest := by
            rw [hmid, List.append_assoc, skipWs_dumpsJ, ← List.append_assoc]
          have helems : parseAux fuel (.elems (dumpsL xs ++ ']' :: rest)) = some (.elems xs rest) := by
            apply ihe xs _ rest (by simp [hxs]) hskipcs
            have hpos := dumpsJ_length_pos hd'
            have hL : (dumpsJ (Json.arr xs)).length = (dumpsL xs).length + 2 := by
              show ('[' :: dumpsL xs ++ [']']).length = _
              simp
            omega
          unfold parseAux
          rw [hskip2]
          simp [hskipcs]
          split
          · rename_i r heq
            rw [hmid, List.append_assoc] at heq
            exact absurd heq (dumpsJ_head_ne_rbrack hd' _ r)
          · rw [helems]
      | obj fs =>
        cases fs with
        | nil =>
          have hskip2 : skipWs s = '{' :: '}' :: rest := by
            rw [hskip]; rfl
          unfold parseAux
          rw [hskip2]
          simp [skipWs, show isWsCh '}' = false from rfl]
        | cons k v tl =>
          set fs := JFields.cons k v tl with hfs
          have hskip2 : skipWs s = '{' :: (dumpsF fs ++ '}' :: rest) := by
            rw [hskip]; show ('{' :: dumpsF fs ++ ['}']) ++ rest = _; simp
          have hskipcs : skipWs (dumpsF fs ++ '}' :: rest) = dumpsF fs ++ '}' :: rest := by
            rw [hfs]; exact skipWs_dumpsF_cons k v tl _
          have hfields : parseAux fuel (.fields (dumpsF fs ++ '}' :: rest)) = some (.fields fs rest) := by
            apply ihf fs _ rest (by simp [hfs]) hskipcs
            have hL : (dumpsJ (Json.obj fs)).length = (dumpsF fs).length + 2 := by
              show ('{' :: dumpsF fs ++ ['}']).length = _
              simp
            omega
          unfold parseAux
          rw [hskip2]
          simp [hskipcs]
          split
          · rename_i r heq
            rw [hfs] at heq
            exact absurd heq (dumpsF_cons_ne_rbrace k v tl _ r)
          · rw [hfields]
    · -- array elements
      intro xs s rest hnil hskip hlen
      cases xs with
      | nil => exact absurd rfl hnil
      | cons hd tl =>
        cases tl with
        | nil =>
          have hd1 : dumpsL (.cons hd .nil) = dumpsJ hd := rfl
          rw [hd1] at hskip hlen
          have hval : parseAux fuel (.val s) = some (.val hd (']' :: rest)) :=
            ihv hd s (']' :: rest) hskip (tailOk_cons_of_not_digit _ _ (by decide)) (by omega)
          unfold parseAux
          rw [hval]
          simp [skipWs, show isWsCh ']' = false from rfl]
        | cons y tl' =>
          have hd1 : dumpsL (.cons hd (.cons y tl')) = dumpsJ hd ++ [',', ' '] ++ dumpsL (.cons y tl') := rfl
          set ys := JList.cons y tl' with hys
          have hskip2 : skipWs s = dumpsJ hd ++ (',' :: ' ' :: (dumpsL ys ++ ']' :: rest)) := by
            rw [hskip, hd1]; simp
          have hlen2 : (dumpsJ hd).length ≤ fuel := by
            rw [hd1] at hlen; simp [List.length_append] at hlen; omega
          have hval : parseAux fuel (.val s) = some (.val hd (',' :: ' ' :: (dumpsL ys ++ ']' :: rest))) :=
            ihv hd s _ hskip2 (tailOk_cons_of_not_digit _ _ (by decide)) hlen2
          have hskipr : skipWs (' ' :: (dumpsL ys ++ ']' :: rest)) = dumpsL ys ++ ']' :: rest := by
            have hws : skipWs (' ' :: (dumpsL ys ++ ']' :: rest)) = skipWs (dumpsL ys ++ ']' :: rest) := by
              simp [skipWs, show isWsCh ' ' = true from rfl]
            rw [hws]
            obtain ⟨mid, hmid⟩ : ∃ mid, dumpsL ys = dumpsJ y ++ mid := by
              cases tl' with
              | nil => exact ⟨[], by simp [hys, dumpsL]⟩
              | cons z tl2 => exact ⟨[',', ' '] ++ dumpsL (.cons z tl2), by simp [hys, dumpsL]⟩
            rw [hmid, List.append_assoc, skipWs_dumpsJ, ← List.append_assoc]
          have hrec : parseAux fuel (.elems (' ' :: (dumpsL ys ++ ']' :: rest))) = some (.elems ys rest) := by
            apply ihe ys _ rest (by simp [hys]) hskipr
            rw [hd1] at hlen
            simp [List.length_append] at hlen
            have := dumpsJ_length_pos hd
            omega
          unfold parseAux
          rw [hval]
          simp [skipWs, show isWsCh ',' = false from rfl, hrec]
    · -- object fields
      intro fs s rest hnil hskip hlen
      cases fs with
      | nil => exact absurd rfl hnil
      | cons k v tl =>
        cases tl with
        | nil =>
          have hd1 : dumpsF (.cons k v .nil) = '"' :: escStr k ++ ['"', ':', ' '] ++ dumpsJ v := rfl
          have hskip2 : skipWs s
              = '"' :: (escStr k ++ '"' :: ':' :: ' ' :: (dumpsJ v ++ '}' :: rest)) := by
            rw [hskip, hd1]; simp
          have hps : parseStrBody (escStr k ++ '"' :: (':' :: ' ' :: (dumpsJ v ++ '}' :: rest)))
              = some (k, ':' :: ' ' :: (dumpsJ v ++ '}' :: rest)) := parseStrBody_round k _
          have hskipv : skipWs (' ' :: (dumpsJ v ++ '}' :: rest)) = dumpsJ v ++ '}' :: rest := by
            have hws : skipWs (' ' :: (dumpsJ v ++ '}' :: rest)) = skipWs (dumpsJ v ++ '}' :: rest) := by
              simp [skipWs, show isWsCh ' ' = true from rfl]
            rw [hws, skipWs_dumpsJ]
          have hval : parseAux fuel (.val (' ' :: (dumpsJ v ++ '}' :: rest)))
              = some (.val v ('}' :: rest)) := by
            apply ihv v _ ('}' :: rest) hskipv (tailOk_cons_of_not_digit _ _ (by decide))
            rw [hd1] at hlen
            simp [List.length_append] at hlen
            omega
          unfold parseAux
          rw [hskip2]
          simp [hps, skipWs, show isWsCh ':' = false from rfl, hval,
            show isWsCh '}' = false from rfl]
        | cons k2 v2 tl2 =>
          have hd1 : dumpsF (.cons k v (.cons k2 v2 tl2))
              = '"' :: escStr k ++ ['"', ':', ' '] ++ dumpsJ v ++ [',', ' '] ++ dumpsF (.cons k2 v2 tl2) := rfl
          set ys := JFields.cons k2 v2 tl2 with hys
          have hskip2 : skipWs s
              = '"' :: (escStr k ++ '"' :: ':' :: ' ' :: (dumpsJ v ++ ',' :: ' ' :: (dumpsF ys ++ '}' :: rest))) := by
            rw [hskip, hd1]; simp
          have hps : parseStrBody (escStr k ++ '"' :: (':' :: ' ' :: (dumpsJ v ++ ',' :: ' ' :: (dumpsF ys ++ '}' :: rest))))
              = some (k, ':' :: ' ' :: (dumpsJ v ++ ',' :: ' ' :: (dumpsF ys ++ '}' :: rest))) := parseStrBody_round k _
          have hskipv : skipWs (' ' :: (dumpsJ v ++ ',' :: ' ' :: (dumpsF ys ++ '}' :: rest)))
              = dumpsJ v ++ ',' :: ' ' :: (dumpsF ys ++ '}' :: rest) := by
            have hws : skipWs (' ' :: (dumpsJ v ++ ',' :: ' ' :: (dumpsF ys ++ '}' :: rest)))
                = skipWs (dumpsJ v ++ ',' :: ' ' :: (dumpsF ys ++ '}' :: rest)) := by
              simp [skipWs, show isWsCh ' ' = true from rfl]
            rw [hws, skipWs_dumpsJ]
          have hlen2 : (dumpsJ v).length ≤ fuel ∧ (dumpsF ys).length + 1 ≤ fuel := by
            rw [hd1] at hlen
            simp [List.length_append] at hlen
            omega
          have hval : parseAux fuel (.val (' ' :: (dumpsJ v ++ ',' :: ' ' :: (dumpsF ys ++ '}' :: rest))))
              = some (.val v (',' :: ' ' :: (dumpsF ys ++ '}' :: rest))) :=
            ihv v _ _ hskipv (tailOk_cons_of_not_digit _ _ (by decide)) hlen2.1
          have hskipf : skipWs (' ' :: (dumpsF ys ++ '}' :: rest)) = dumpsF ys ++ '}' :: rest := by
            have hws : skipWs (' ' :: (dumpsF ys ++ '}' :: rest)) = skipWs (dumpsF ys ++ '}' :: rest) := by
              simp [skipWs, show isWsCh ' ' = true from rfl]
            rw [hws, hys]
            exact skipWs_dumpsF_cons k2 v2 tl2 _
          have hrec : parseAux fuel (.fields (' ' :: (dumpsF ys ++ '}' :: rest)))
              = some (.fields ys rest) :=
            ihf ys _ rest (by simp [hys]) hskipf hlen2.2
          unfold parseAux
          rw [hskip2]
          simp [hps, skipWs, show isWsCh ':' = false from rfl, hval,
            show isWsCh ',' = false from rfl, hrec]

theorem tailOk_nil : tailOk [] := by
  intro c cs h
  cases h

/-- `json.loads(json.dumps(x)) == x` in the modelled fragment. -/
theorem loads_dumpsJ (v : Json) : loads (dumpsJ v) = some v := by
  unfold loads
  have h1 : skipWs (dumpsJ v) = dumpsJ v ++ [] := by
    rw [List.append_nil]
    have := skipWs_dumpsJ v []
    rwa [List.append_nil] at this
  have hv := (parse_round ((dumpsJ v).length + 1)).1 v (dumpsJ v) [] h1 tailOk_nil (by omega)
  rw [hv]
  simp [skipWs]

theorem isPre_decomp (f : Str) : ∀ s, isPre f s = true → s = f ++ s.drop f.length := by
  induction f with
  | nil => intro s _; simp
  | cons c cs ih =>
    intro s h
    cases s with
    | nil => simp [isPre] at h
    | cons d ds =>
      simp only [isPre, Bool.and_eq_true, decide_eq_true_eq] at h
      obtain ⟨rfl, h2⟩ := h
      have := ih ds h2
      simp only [List.length_cons, List.drop_succ_cons, List.cons_append]
      exact congrArg _ this

theorem replGo_self (f : Str) : ∀ k s, replGo f f k s = s := by
  intro k
  induction k with
  | zero =>
    intro s
    cases s with
    | nil => rfl
    | cons c cs => rfl
  | succ k ih =>
    intro s
    cases s with
    | nil => rfl
    | cons c cs =>
      unfold replGo
      by_cases h : isPre f (c :: cs) = true
      · rw [if_pos h, ih]
        exact (isPre_decomp f (c :: cs) h).symm
      · rw [if_neg h, ih]

/-- `s.replace(f, f) == s` for a non-empty pattern. -/
theorem pyReplace_self (s f : Str) (hf : f ≠ []) : pyReplace s f f = s := by
  unfold pyReplace
  rw [if_neg hf]
  exact replGo_self f s.length s

theorem replElem_self (f : Str) (hf : f ≠ []) (e : Json) :
    replElem f f e = (e, elemMatches f e) := by
  have hps : ∀ s, pyReplace s f f = s := fun s => pyReplace_self s f hf
  cases e with
  | str s =>
    by_cases hm : hasSub f s
    · simp [replElem, elemMatches, hm, hps]
    · simp [replElem, elemMatches, hm]
  | null =>
    by_cases hm : hasSub f (dumpsJ .null)
    · simp [replElem, elemMatches, hm, hps, loads_dumpsJ]
    · simp [replElem, elemMatches, hm]
  | bool b =>
    by_cases hm : hasSub f (dumpsJ (.bool b))
    · simp [replElem, elemMatches, hm, hps, loads_dumpsJ]
    · simp [replElem, elemMatches, hm]
  | num n =>
    by_cases hm : hasSub f (dumpsJ (.num n))
    · simp [replElem, elemMatches, hm, hps, loads_dumpsJ]
    · simp [replElem, elemMatches, hm]
  | arr xs =>
    by_cases hm : hasSub f (dumpsJ (.arr xs))
    · simp [replElem, elemMatches, hm, hps, loads_dumpsJ]
    · simp [replElem, elemMatches, hm]
  | obj fs =>
    by_cases hm : hasSub f (dumpsJ (.obj fs))
    · simp [replElem, elemMatches, hm, hps, loads_dumpsJ]
    · simp [replElem, elemMatches, hm]

theorem replaceTransform_cons (e : Json) (L : List Json) (f r : Str) :
    replaceTransform (e :: L) f r =
      ((replElem f r e).1 :: (replaceTransform L f r).1,
       (if (replElem f r e).2 then 1 else 0) + (replaceTransform L f r).2) := rfl

theorem replaceTransform_self (L : List Json) (f : Str) (hf : f ≠ []) :
    replaceTransform L f f = (L, L.countP (elemMatches f)) := by
  induction L with
  | nil => rfl
  | cons e L ih =>
    rw [replaceTransform_cons, ih, replElem_self f hf e, List.countP_cons]
    by_cases hm : elemMatches f e
    · simp [hm, Nat.add_comm]
    · simp [hm]

theorem replElem_counted (f r : Str) (e : Json) (h : (replElem f r e).2 = true) :
    elemMatches f e = true := by
  cases e with
  | str s =>
    by_cases hm : hasSub f s
    · exact hm
    · simp [replElem, hm] at h
  | null =>
    by_cases hm : hasSub f (dumpsJ .null)
    · exact hm
    · simp [replElem, hm] at h
  | bool b =>
    by_cases hm : hasSub f (dumpsJ (.bool b))
    · exact hm
    · simp [replElem, hm] at h
  | num n =>
    by_cases hm : hasSub f (dumpsJ (.num n))
    · exact hm
    · simp [replElem, hm] at h
  | arr xs =>
    by_cases hm : hasSub f (dumpsJ (.arr xs))
    · exact hm
    · simp [replElem, hm] at h
  | obj fs =>
    by_cases hm : hasSub f (dumpsJ (.obj fs))
    · exact hm
    · simp [replElem, hm] at h

theorem replaceCount_le (L : List Json) (f r : Str) :
    (replaceTransform L f r).2 ≤ L.countP (elemMatches f) := by
  induction L with
  | nil => simp [replaceTransform]
  | cons e L ih =>
    rw [replaceTransform_cons, List.countP_cons]
    by_cases hc : (replElem f r e).2 = true
    · rw [replElem_counted f r e hc]
      simp [hc]
      omega
    · have : (replElem f r e).2 = false := by simpa using hc
      rw [this]
      simp
      split <;> omega

theorem splitGo_flatten (data : List Json) (cs : Nat) :
    ∀ k i, (splitGo data cs k i).flatten = (data.drop (i * cs)).take (k * cs) := by
  intro k
  induction k with
  | zero => intro i; simp [splitGo]
  | succ k ih =>
    intro i
    unfold splitGo
    by_cases hch : (data.drop (i * cs)).take cs = []
    · rw [if_pos hch]
      rcases List.take_eq_nil_iff.mp hch with hcs | hd
      · simp [hcs]
      · simp [hd]
    · rw [if_neg hch]
      simp only [List.flatten_cons]
      rw [ih (i + 1)]
      have h1 : data.drop ((i + 1) * cs) = (data.drop (i * cs)).drop cs := by
        rw [List.drop_drop]
        ring_nf
      rw [h1, ← List.take_add]
      congr 1
      ring

theorem splitGo_length_le (data : List Json) (cs : Nat) :
    ∀ k i, (splitGo data cs k i).length ≤ k := by
  intro k
  induction k with
  | zero => intro i; simp [splitGo]
  | succ k ih =>
    intro i
    unfold splitGo
    by_cases hch : (data.drop (i * cs)).take cs = []
    · rw [if_pos hch]; simp
    · rw [if_neg hch]
      simp only [List.length_cons]
      exact Nat.succ_le_succ (ih (i + 1))

theorem splitGo_mem (data : List Json) (cs : Nat) :
    ∀ k i p, p ∈ splitGo data cs k i → p ≠ [] ∧ p.length ≤ cs := by
  intro k
  induction k with
  | zero => intro i p hp; simp [splitGo] at hp
  | succ k ih =>
    intro i p hp
    unfold splitGo at hp
    by_cases hch : (data.drop (i * cs)).take cs = []
    · rw [if_pos hch] at hp; simp at hp
    · rw [if_neg hch] at hp
      rcases List.mem_cons.mp hp with rfl | hmem
      · refine ⟨hch, ?_⟩
        rw [List.length_take]
        exact Nat.min_le_left _ _
      · exact ih (i + 1) p hmem

theorem le_mul_ceilDiv (len n : Nat) (hn : 1 ≤ n) : len ≤ n * ceilDiv len n := by
  unfold ceilDiv
  have h1 := Nat.div_add_mod (len + n - 1) n
  have h2 : (len + n - 1) % n < n := Nat.mod_lt _ (by omega)
  generalize hq : (len + n - 1) / n = q at *
  generalize hm : n * q = m at *
  omega

theorem splitParts_flatten (data : List Json) (n : Nat) (hn : 1 ≤ n) :
    (splitParts data n).flatten = data := by
  unfold splitParts
  rw [splitGo_flatten]
  simp only [Nat.zero_mul, List.drop_zero]
  exact List.take_of_length_le (le_mul_ceilDiv data.length n hn)

theorem splitParts_nil (n : Nat) : splitParts [] n = [] := by
  unfold splitParts
  cases n with
  | zero => rfl
  | succ k => simp [splitGo]

/-!
Subtract and merge lemmas.
-/

theorem subtractList_eq_filter (M : List Json) (F : List SetElem) :
    subtractList M F = M.filter (fun x => !(decide (subKey x ∈ F))) := by
  induction M with
  | nil => rfl
  | cons x xs ih =>
    unfold subtractList
    by_cases hx : subKey x ∈ F
    · rw [if_pos hx, ih]
      simp [List.filter_cons, hx]
    · rw [if_neg hx, ih]
      simp [List.filter_cons, hx]

theorem subtractList_length (M : List Json) (F : List SetElem) :
    (subtractList M F).length + M.countP (fun x => decide (subKey x ∈ F)) = M.length := by
  induction M with
  | nil => rfl
  | cons x xs ih =>
    unfold subtractList
    rw [List.countP_cons]
    by_cases hx : subKey x ∈ F
    · rw [if_pos hx]
      simp [hx]
      omega
    · rw [if_neg hx]
      simp [hx]
      omega

theorem subtractList_empty_filter (M : List Json) : subtractList M [] = M := by
  induction M with
  | nil => rfl
  | cons x xs ih =>
    unfold subtractList
    rw [if_neg (by simp), ih]

theorem mergeIngestList_append (st : List SetElem) (a b : List Json) :
    mergeIngestList st (a ++ b) = mergeIngestList (mergeIngestList st a) b := by
  unfold mergeIngestList
  exact List.foldl_append ..

theorem mergeAccum_eq_flatten (uploads : List (List Json)) :
    mergeAccum uploads = mergeIngestList [] uploads.flatten := by
  unfold mergeAccum
  suffices h : ∀ st, List.foldl mergeIngestList st uploads = mergeIngestList st uploads.flatten by
    exact h []
  induction uploads with
  | nil => intro st; rfl
  | cons a ups ih =>
    intro st
    rw [List.foldl_cons, List.flatten_cons, mergeIngestList_append, ih]

/-- Shared helper (used by the subtract-mode claims): `finalize_action`
with `op_main`/`op_filter` mode and empty `main_data` hits
`if not state['main_data']: return` - it emits nothing and leaves the
session untouched. -/
theorem finalize_no_main_helper (iter : List SetElem → List SetElem) (s : SessionState)
    (h : s.mode = Mode.opMain ∨ s.mode = Mode.opFilter) (hm : s.mainData = []) :
    finalizeAction iter (some s) = (some s, []) := by
  have hnm : ¬s.mode = Mode.merge := by rcases h with h | h <;> simp [h]
  unfold finalizeAction
  simp [hnm, h, hm]

/-- C1 (amended): for every sequence of uploaded input lists in a Merge
session and every iteration order of the accumulated set (Python sets
are unordered; any permutation of the contents), the finalized output
has exactly one element per distinct normalized key: its length equals
the number of distinct normalized keys across all inputs combined.  The
order-stability part of the claim is refuted by the counterexample. -/
theorem merge_finalize_length_eq_distinct_keys (uploads : List (List Json))
    (itl : List SetElem) (h : itl.Perm (mergeAccum uploads)) :
    (mergeFinalizeList itl).length = (dedupKeys uploads.flatten).length := by
  unfold mergeFinalizeList dedupKeys
  rw [List.length_map, h.length_eq, mergeAccum_eq_flatten]

/-- C1 witness: the spec's own example `[1,2,2]` then `[2,3]`, with the
CPython small-int iteration order. -/
theorem merge_finalize_length_eq_distinct_keys_witness :
    (smallIntSetIter (mergeAccum [[Json.num 1, Json.num 2, Json.num 2], [Json.num 2, Json.num 3]])).Perm
        (mergeAccum [[Json.num 1, Json.num 2, Json.num 2], [Json.num 2, Json.num 3]])
    ∧ (mergeFinalizeList (smallIntSetIter
          (mergeAccum [[Json.num 1, Json.num 2, Json.num 2], [Json.num 2, Json.num 3]]))).length
        = (dedupKeys ([[Json.num 1, Json.num 2, Json.num 2], [Json.num 2, Json.num 3]] : List (List Json)).flatten).length :=
  ⟨by decide, merge_finalize_length_eq_distinct_keys _ _ (by decide)⟩

/-- C1 counterexample: a full merge session uploading `[2, 1]`.  The
finalized file contains `[1, 2]` (CPython's set iteration order for
distinct small non-negative ints is ascending), not the first-occurrence
order `[2, 1]` the claim requires. -/
theorem merge_order_counterexample :
    docsOf (finalizeAction smallIntSetIter
        ((handleFiles ((initMerge none).1)
          (some (Json.arr (JList.ofList [Json.num 2, Json.num 1])))).1)).2
      = [[Json.num 1, Json.num 2]]
    ∧ dedupFirstOcc [Json.num 2, Json.num 1] = [Json.num 2, Json.num 1]
    ∧ ([Json.num 1, Json.num 2] : List Json) ≠ [Json.num 2, Json.num 1] := by
  decide

/-- C2 (amended): uploading an empty list in a Split session is not
rejected: the handler emits no parts and no message at all (the loop
breaks on the first empty chunk before sending anything) and the session
state is removed; no emitted part of any split is ever empty. -/
theorem split_empty_silent (s : SessionState) (h : s.mode = Mode.split) :
    handleFiles (some s) (some (Json.arr JList.nil)) = (none, [])
    ∧ (∀ (L : List Json) (n : Nat) (p : List Json), p ∈ splitParts L n → p ≠ []) := by
  constructor
  · unfold handleFiles
    simp [h, splitOuts, splitParts_nil, JList.toList]
  · intro L n p hp
    exact (splitGo_mem L (ceilDiv L.length n) n 0 p hp).1

/-- C2 witness for the amended claim. -/
theorem split_empty_silent_witness :
    ({ mode := Mode.split, splitN := 3 } : SessionState).mode = Mode.split
    ∧ handleFiles (some ({ mode := Mode.split, splitN := 3 } : SessionState))
        (some (Json.arr JList.nil)) = (none, [])
    ∧ ([Json.num 0] ∈ splitParts [Json.num 0] 1 ∧ ([Json.num 0] : List Json) ≠ []) :=
  ⟨rfl, (split_empty_silent _ rfl).1,
    by decide, (split_empty_silent ({ mode := Mode.split, splitN := 3 }) rfl).2 [Json.num 0] 1 [Json.num 0] (by decide)⟩

/-- C2 counterexample to the claim as stated: the empty upload in a
Split session produces no `EmptyInput` error - no message and no file is
emitted at all (and the session is silently cleared). -/
theorem split_empty_counterexample :
    handleFiles (some ({ mode := Mode.split, splitN := 3 } : SessionState))
      (some (Json.arr JList.nil)) = (none, []) := by
  decide

/-- C3: for every non-empty list and every n ≥ 1, the split transform
with `chunk_size = ceil(len(L)/n)` emits parts that concatenate back to
`L` (so each element lands in exactly one part, order preserved, lengths
sum to `len(L)`), each part has at most `chunk_size` elements, no part
is empty, and at most `n` parts are emitted. -/
theorem split_conservation (L : List Json) (n : Nat) (_hL : L ≠ []) (hn : 1 ≤ n) :
    (splitParts L n).flatten = L
    ∧ (∀ p ∈ splitParts L n, p ≠ [] ∧ p.length ≤ ceilDiv L.length n)
    ∧ (splitParts L n).length ≤ n := by
  refine ⟨splitParts_flatten L n hn, ?_, ?_⟩
  · intro p hp
    exact splitGo_mem L (ceilDiv L.length n) n 0 p hp
  · exact splitGo_length_le L (ceilDiv L.length n) n 0

/-- C3 witness: the spec's example, 7 items into n = 3 parts of sizes
[3, 3, 1]. -/
theorem split_conservation_witness :
    (([Json.num 0, Json.num 1, Json.num 2, Json.num 3, Json.num 4, Json.num 5, Json.num 6] : List Json) ≠ []
      ∧ (1 : Nat) ≤ 3)
    ∧ ((splitParts [Json.num 0, Json.num 1, Json.num 2, Json.num 3, Json.num 4, Json.num 5, Json.num 6] 3).flatten
          = [Json.num 0, Json.num 1, Json.num 2, Json.num 3, Json.num 4, Json.num 5, Json.num 6]
        ∧ (∀ p ∈ splitParts [Json.num 0, Json.num 1, Json.num 2, Json.num 3, Json.num 4, Json.num 5, Json.num 6] 3,
            p ≠ [] ∧ p.length ≤ ceilDiv ([Json.num 0, Json.num 1, Json.num 2, Json.num 3, Json.num 4, Json.num 5, Json.num 6] : List Json).length 3)
        ∧ (splitParts [Json.num 0, Json.num 1, Json.num 2, Json.num 3, Json.num 4, Json.num 5, Json.num 6] 3).length ≤ 3) :=
  ⟨⟨by decide, by decide⟩,
    split_conservation [Json.num 0, Json.num 1, Json.num 2, Json.num 3, Json.num 4, Json.num 5, Json.num 6] 3
      (by decide) (by decide)⟩

/-- C4: the subtraction loop equals the filter comprehension
`[x for x in M if normalize(x) not in F]` (preserving order and the
duplicates not in `F`), its length plus the number of filtered-out
occurrences is `len(M)`, and subtracting an empty filter set is the
identity. -/
theorem subtract_spec (M : List Json) (F : List SetElem) :
    subtractList M F = M.filter (fun x => !(decide (subKey x ∈ F)))
    ∧ (subtractList M F).length + M.countP (fun x => decide (subKey x ∈ F)) = M.length
    ∧ subtractList M [] = M :=
  ⟨subtractList_eq_filter M F, subtractList_length M F, subtractList_empty_filter M⟩

/-- C5 (amended): invoking finalize in a Subtract session before a main
file has been captured is a silent no-op - `if not state['main_data']:
return` emits no message (there is no `NoMainData` error in the code)
and keeps the session unchanged. -/
theorem subtract_finalize_no_main_silent (iter : List SetElem → List SetElem)
    (s : SessionState) (h : s.mode = Mode.opMain ∨ s.mode = Mode.opFilter)
    (hm : s.mainData = []) :
    finalizeAction iter (some s) = (some s, []) :=
  finalize_no_main_helper iter s h hm

/-- C5 witness for the amended claim. -/
theorem subtract_finalize_no_main_silent_witness :
    (({ mode := Mode.opMain } : SessionState).mode = Mode.opMain
        ∨ ({ mode := Mode.opMain } : SessionState).mode = Mode.opFilter)
    ∧ ({ mode := Mode.opMain } : SessionState).mainData = []
    ∧ finalizeAction smallIntSetIter (some ({ mode := Mode.opMain } : SessionState))
        = (some ({ mode := Mode.opMain } : SessionState), []) :=
  ⟨Or.inl rfl, rfl, subtract_finalize_no_main_silent smallIntSetIter _ (Or.inl rfl) rfl⟩

/-- C5 counterexample to the claim as stated: right after `/operation`,
`/done` fails silently - the output list is empty, so no `NoMainData`
(or any) error message is surfaced. -/
theorem subtract_finalize_premature_counterexample :
    finalizeAction smallIntSetIter ((initOperation none).1)
      = ((initOperation none).1, []) := by
  decide

/-- C6 (amended): `handle_text_inputs` in the find step stores whatever
text arrives - including the empty string - and advances to the
replace step; no `EmptyFindText` check exists, so the transform can
later run with an empty find-string. -/
theorem replace_find_stored (s : SessionState) (text : Str) (h : s.mode = Mode.replaceStep1) :
    handleTextInputs (some s) text
      = (some { s with mode := Mode.replaceStep2, findText := text },
         [Out.msg (chars "Finding: " ++ text ++ chars ". Step 2: send the text to REPLACE IT WITH.")]) := by
  unfold handleTextInputs
  simp [h]

/-- C6 witness for the amended claim, at the empty find-string. -/
theorem replace_find_stored_witness :
    ({ mode := Mode.replaceStep1 } : SessionState).mode = Mode.replaceStep1
    ∧ handleTextInputs (some ({ mode := Mode.replaceStep1 } : SessionState)) []
      = (some { mode := Mode.replaceStep2, findText := [] },
         [Out.msg (chars "Finding: " ++ [] ++ chars ". Step 2: send the text to REPLACE IT WITH.")]) :=
  ⟨rfl, replace_find_stored _ [] rfl⟩

/-- C6 counterexample to the claim as stated: an empty find-string is
accepted (the mode advances, no error), and a replace transform then
runs with it, mangling `"ab"` into `"XaXbX"`. -/
theorem replace_empty_find_counterexample :
    (handleTextInputs (some ({ mode := Mode.replaceStep1 } : SessionState)) []).1
      = some { mode := Mode.replaceStep2, findText := [] }
    ∧ docsOf (handleFiles
        (some ({ mode := Mode.replaceReady, findText := [], replaceText := chars "X" } : SessionState))
        (some (Json.arr (JList.ofList [Json.str (chars "ab")])))).2
      = [[Json.str (chars "XaXbX")]] := by
  decide

/-- C7: with a non-empty find-string and replace == find, the replace
transform returns every element unchanged and counts exactly the
elements containing a literal match (in the string itself for strings,
in the plain `json.dumps` serialization otherwise); for every
replacement string the count is per element - at most one per element
containing a match, never per substring occurrence. -/
theorem replace_self_roundtrip (L : List Json) (f : Str) (hf : f ≠ []) (r : Str) :
    (replaceTransform L f f).1 = L
    ∧ (replaceTransform L f f).2 = L.countP (elemMatches f)
    ∧ (replaceTransform L f r).2 ≤ L.countP (elemMatches f)
    ∧ L.countP (elemMatches f) ≤ L.length := by
  have h := replaceTransform_self L f hf
  refine ⟨?_, ?_, replaceCount_le L f r, List.countP_le_length _⟩
  · rw [h]
  · rw [h]

/-- C7 witness: the spec's example list with find `"a.com"`, both for
replace == find and for the real replacement `"x.com"`. -/
theorem replace_self_roundtrip_witness :
    chars "a.com" ≠ []
    ∧ ((replaceTransform [Json.str (chars "http://a.com"), Json.str (chars "http://b.com")] (chars "a.com") (chars "a.com")).1
          = [Json.str (chars "http://a.com"), Json.str (chars "http://b.com")]
        ∧ (replaceTransform [Json.str (chars "http://a.com"), Json.str (chars "http://b.com")] (chars "a.com") (chars "a.com")).2
          = ([Json.str (chars "http://a.com"), Json.str (chars "http://b.com")] : List Json).countP (elemMatches (chars "a.com"))
        ∧ (replaceTransform [Json.str (chars "http://a.com"), Json.str (chars "http://b.com")] (chars "a.com") (chars "x.com")).2
          ≤ ([Json.str (chars "http://a.com"), Json.str (chars "http://b.com")] : List Json).countP (elemMatches (chars "a.com"))
        ∧ ([Json.str (chars "http://a.com"), Json.str (chars "http://b.com")] : List Json).countP (elemMatches (chars "a.com"))
          ≤ ([Json.str (chars "http://a.com"), Json.str (chars "http://b.com")] : List Json).length) :=
  ⟨by decide,
    replace_self_roundtrip [Json.str (chars "http://a.com"), Json.str (chars "http://b.com")]
      (chars "a.com") (by decide) (chars "x.com")⟩

/-- C8 (amended): `init_split` replies with a usage error when `n` is
missing and with a generic error when `int(n)` raises; but a
non-positive integer `n` hits `if n < 1: return` and is rejected
silently, with no user-visible message.  In all three cases
`user_states` is untouched. -/
theorem init_split_cases (st : Option SessionState) (text : Str) :
    ((splitWs text).length < 2 →
      initSplit st text = (st, [Out.msg (chars "Specify N. Example: /split 5")]))
    ∧ (2 ≤ (splitWs text).length → pyInt ((splitWs text).getD 1 []) = none →
      initSplit st text = (st, [Out.msg (chars "Error.")]))
    ∧ (∀ n : Int, 2 ≤ (splitWs text).length → pyInt ((splitWs text).getD 1 []) = some n →
      n < 1 → initSplit st text = (st, [])) := by
  refine ⟨?_, ?_, ?_⟩
  · intro hlen
    unfold initSplit
    rw [if_pos hlen]
  · intro hlen hint
    unfold initSplit
    rw [if_neg (by omega), hint]
  · intro n hlen hint hn
    unfold initSplit
    rw [if_neg (by omega), hint]
    simp [hn]

/-- C8 witness for the amended claim: `/split 0`. -/
theorem init_split_cases_witness :
    (2 ≤ (splitWs (chars "/split 0")).length
      ∧ pyInt ((splitWs (chars "/split 0")).getD 1 []) = some 0
      ∧ (0 : Int) < 1)
    ∧ initSplit none (chars "/split 0") = (none, []) :=
  ⟨⟨by decide, by decide, by decide⟩,
    (init_split_cases none (chars "/split 0")).2.2 0 (by decide) (by decide) (by decide)⟩

/-- C8 counterexample to the claim as stated: `/split 0` produces no
user-visible error message at all (and no state change). -/
theorem split_zero_counterexample :
    initSplit none (chars "/split 0") = (none, []) := by
  decide

/-- C9: in a Merge session, the plain string `"JSON_OBJ:" +
json.dumps(obj, sort_keys=True)` is treated as a duplicate of the
structurally distinct object `obj = {"a": 1}` (the set retains a single
entry for both), and at finalize the retained `"JSON_OBJ:"`-prefixed
string is emitted as the parsed object, not as the original string. -/
theorem merge_json_obj_prefix_collision :
    mergeIngestList []
        [Json.obj (.cons (chars "a") (.num 1) .nil),
         Json.str (chars "JSON_OBJ:" ++ dumpsSorted (Json.obj (.cons (chars "a") (.num 1) .nil)))]
      = [SetElem.pyStr (chars "JSON_OBJ:" ++ dumpsSorted (Json.obj (.cons (chars "a") (.num 1) .nil)))]
    ∧ mergeFinalizeList
        [SetElem.pyStr (chars "JSON_OBJ:" ++ dumpsSorted (Json.obj (.cons (chars "a") (.num 1) .nil)))]
      = [Json.obj (.cons (chars "a") (.num 1) .nil)]
    ∧ Json.str (chars "JSON_OBJ:" ++ dumpsSorted (Json.obj (.cons (chars "a") (.num 1) .nil)))
      ≠ Json.obj (.cons (chars "a") (.num 1) .nil) := by
  decide

/-- C10: uploading a main file whose root is the empty list in a
Subtract session is accepted (mode advances to filter collection), and
from then on every finalize is a silent no-op: `main_data` stays empty
through any further uploads, finalize emits nothing, and the session
state is never removed. -/
theorem subtract_empty_main_no_finalize (s : SessionState) (h : s.mode = Mode.opMain) :
    handleFiles (some s) (some (Json.arr JList.nil))
      = (some { s with mode := Mode.opFilter, mainData := [] },
         [Out.msg (chars "Main loaded. Upload filters.")])
    ∧ (∀ s' : SessionState, s'.mode = Mode.opFilter → s'.mainData = [] →
        (∀ iter, finalizeAction iter (some s') = (some s', []))
        ∧ (∀ c, ∃ s'', (handleFiles (some s') c).1 = some s''
            ∧ s''.mode = Mode.opFilter ∧ s''.mainData = [])) := by
  constructor
  · unfold handleFiles
    simp [h, JList.toList]
  · intro s' h' hm'
    constructor
    · intro iter
      exact finalize_no_main_helper iter s' (Or.inr h') hm'
    · intro c
      cases c with
      | none =>
        refine ⟨s', ?_, h', hm'⟩
        unfold handleFiles
        simp
      | some v =>
        cases v with
        | arr xs =>
          refine ⟨{ s' with filterSet := filterIngest s'.filterSet xs.toList }, ?_, h', hm'⟩
          unfold handleFiles
          simp [h']
        | null =>
          refine ⟨s', ?_, h', hm'⟩
          unfold handleFiles
          simp
        | bool b =>
          refine ⟨s', ?_, h', hm'⟩
          unfold handleFiles
          simp
        | num n =>
          refine ⟨s', ?_, h', hm'⟩
          unfold handleFiles
          simp
        | str t =>
          refine ⟨s', ?_, h', hm'⟩
          unfold handleFiles
          simp
        | obj fs =>
          refine ⟨s', ?_, h', hm'⟩
          unfold handleFiles
          simp

/-- C10 witness. -/
theorem subtract_empty_main_no_finalize_witness :
    ({ mode := Mode.opMain } : SessionState).mode = Mode.opMain
    ∧ handleFiles (some ({ mode := Mode.opMain } : SessionState)) (some (Json.arr JList.nil))
        = (some { mode := Mode.opFilter }, [Out.msg (chars "Main loaded. Upload filters.")])
    ∧ finalizeAction smallIntSetIter (some ({ mode := Mode.opFilter } : SessionState))
        = (some { mode := Mode.opFilter }, []) := by
  have h := subtract_empty_main_no_finalize { mode := Mode.opMain } rfl
  exact ⟨rfl, h.1, (h.2 { mode := Mode.opFilter } rfl rfl).1 smallIntSetIter⟩
